import Mathlib

/-!
Verification of the personal-dashboard repository's ingestion and
unified-timeline synchronization core, together with the frontend
components present in the repository.

The frontend (React/Vue sources under `frontend/`) is embedded directly
from the TypeScript/JavaScript code.  The backend core (Activity Store,
Sync Orchestrator, Timeline Query Engine) is not part of the shipped
sources — only its database schema, API callers and documentation are —
so those components are modelled from the specification, as marked on
each definition.
-/

namespace Dashboard

/-! ## Data model

`ActivityRecord` follows the canonical schema: the `activities` table of
`docs/database-schema.md` (`source_type`, `source_id`, `activity_type`,
`title`, `description`, `url`, `metadata`, `occurred_at`, `created_at`)
and the spec's §3 `ActivityRecord`.  Timestamps are modelled as integers. -/

structure ActivityRecord where
  sourceKind : String
  sourceNativeId : String
  activityKind : String
  title : String
  description : String
  url : Option String
  metadata : List (String × String)
  occurredAt : Int
  ingestedAt : Int
deriving DecidableEq, Repr

/-- The dedup key of a record: the pair `(sourceKind, sourceNativeId)`. -/
def ActivityRecord.key (r : ActivityRecord) : String × String :=
  (r.sourceKind, r.sourceNativeId)

/-- Outcome of an Activity Store upsert, per the spec's §4.6 contract
`upsert(record) -> {inserted|updated|unchanged}`. -/
inductive UpsertResult where
  | inserted
  | updated
  | unchanged
deriving DecidableEq, Repr

/-- The Activity Store contents: the list of stored records. -/
abbrev ActivityStore := List ActivityRecord

/-- Modelled from the spec: the Activity Store's `upsert` (§4.6, §4.5) —
the store implementation is not among the shipped sources.  Keyed by
`(sourceKind, sourceNativeId)`: if absent, insert; if present and any
field differs, update the existing record in place; if present and
identical, skip. -/
def upsert (store : ActivityStore) (r : ActivityRecord) :
    UpsertResult × ActivityStore :=
  match store.find? (fun s => decide (s.key = r.key)) with
  | none => (.inserted, store ++ [r])
  | some s =>
      if s = r then (.unchanged, store)
      else (.updated, store.map (fun t => if t.key = r.key then r else t))

/-- Applying a whole sequence of upserts, first element first. -/
def applyUpserts (store : ActivityStore) (rs : List ActivityRecord) :
    ActivityStore :=
  rs.foldl (fun st r => (upsert st r).2) store

/-- Uniqueness invariant: no two stored records share a dedup key. -/
def UniqueKeys (store : ActivityStore) : Prop :=
  store.Pairwise (fun a b => a.key ≠ b.key)

/-- Whether some stored record already carries `r`'s dedup key. -/
def hasKey (store : ActivityStore) (r : ActivityRecord) : Prop :=
  ∃ s ∈ store, s.key = r.key

/-! ### Activity Store lemmas -/

lemma key_update_invariant (r t : ActivityRecord) :
    (if t.key = r.key then r else t).key = t.key := by
  by_cases h : t.key = r.key
  · simp [h]
  · simp [h]

lemma upsert_preserves_uniqueKeys (store : ActivityStore)
    (r : ActivityRecord) (h : UniqueKeys store) :
    UniqueKeys (upsert store r).2 := by
  unfold upsert
  cases hf : store.find? (fun s => decide (s.key = r.key)) with
  | none =>
      simp only [UniqueKeys, List.pairwise_append]
      refine ⟨h, List.pairwise_singleton _ _, ?_⟩
      intro a ha b hb
      have := List.find?_eq_none.mp hf a ha
      simp only [List.mem_singleton] at hb
      subst hb
      simpa using this
  | some s =>
      by_cases he : s = r
      · simpa [he] using h
      · simp only [he, if_false]
        unfold UniqueKeys at h ⊢
        rw [List.pairwise_map]
        refine h.imp_of_mem ?_
        intro a b _ _ hab
        rw [key_update_invariant, key_update_invariant]
        exact hab

lemma upsert_length_of_hasKey (store : ActivityStore) (r : ActivityRecord)
    (h : hasKey store r) : (upsert store r).2.length = store.length := by
  unfold upsert
  cases hf : store.find? (fun s => decide (s.key = r.key)) with
  | none =>
      obtain ⟨s, hs, hk⟩ := h
      have := List.find?_eq_none.mp hf s hs
      simp [hk] at this
  | some s =>
      by_cases he : s = r <;> simp [he]

lemma applyUpserts_preserves_uniqueKeys (rs : List ActivityRecord)
    (store : ActivityStore) (h : UniqueKeys store) :
    UniqueKeys (applyUpserts store rs) := by
  induction rs generalizing store with
  | nil => simpa [applyUpserts]
  | cons r rs ih =>
      simp only [applyUpserts, List.foldl_cons]
      exact ih _ (upsert_preserves_uniqueKeys store r h)

/-- Claim C1: for every sequence of upserts applied to an Activity Store
satisfying the uniqueness invariant (in particular the empty store), the
store never contains two records sharing `(sourceKind, sourceNativeId)`,
and upserting a record whose key is already present updates in place, so
the record count does not grow. -/
theorem activityStore_unique_keys (rs : List ActivityRecord)
    (store : ActivityStore) (h : UniqueKeys store) :
    UniqueKeys (applyUpserts store rs) ∧
    ∀ r : ActivityRecord, hasKey store r →
      (upsert store r).2.length = store.length := by
  exact ⟨applyUpserts_preserves_uniqueKeys rs store h,
    fun r hr => upsert_length_of_hasKey store r hr⟩

/-- A concrete record used by witnesses. -/
def sampleRecord : ActivityRecord :=
  { sourceKind := "trello"
    sourceNativeId := "card-1"
    activityKind := "task_complete"
    title := "Ship schema"
    description := "done"
    url := none
    metadata := [("board", "dev")]
    occurredAt := 100
    ingestedAt := 105 }

/-- Witness for C1: instantiated on the empty store, whose uniqueness
invariant holds trivially; the key-present branch is exercised via the
store holding `sampleRecord`. -/
theorem activityStore_unique_keys_witness :
    UniqueKeys (applyUpserts [] [sampleRecord, sampleRecord]) ∧
    (upsert [sampleRecord] sampleRecord).2.length = [sampleRecord].length := by
  constructor
  · exact (activityStore_unique_keys [sampleRecord, sampleRecord] []
      (List.Pairwise.nil)).1
  · exact (activityStore_unique_keys [] [sampleRecord]
      (List.pairwise_singleton _ _)).2 sampleRecord
      ⟨sampleRecord, List.mem_singleton_self _, rfl⟩

/-! ### Idempotence (C7) -/

lemma find?_map_update (r : ActivityRecord) (store : ActivityStore)
    (s : ActivityRecord)
    (hf : store.find? (fun t => decide (t.key = r.key)) = some s) :
    (store.map (fun t => if t.key = r.key then r else t)).find?
      (fun t => decide (t.key = r.key)) = some r := by
  induction store with
  | nil => simp at hf
  | cons a l ih =>
      by_cases ha : a.key = r.key
      · simp [ha]
      · rw [List.find?_cons_of_neg _ (by simpa using ha)] at hf
        simp only [List.map_cons, ha, if_false]
        rw [List.find?_cons_of_neg _ (by simpa using ha)]
        exact ih hf

lemma find?_after_upsert (store : ActivityStore) (r : ActivityRecord) :
    (upsert store r).2.find? (fun t => decide (t.key = r.key)) = some r := by
  unfold upsert
  cases hf : store.find? (fun s => decide (s.key = r.key)) with
  | none =>
      simp only
      rw [List.find?_append, hf]
      simp
  | some s =>
      by_cases he : s = r
      · subst he
        simp [hf]
      · simp only [he, if_false]
        exact find?_map_update r store s hf

lemma find?_of_mem_uniqueKeys (store : ActivityStore) (r : ActivityRecord)
    (hu : UniqueKeys store) (hm : r ∈ store) :
    store.find? (fun t => decide (t.key = r.key)) = some r := by
  induction store with
  | nil => simp at hm
  | cons a l ih =>
      rcases List.mem_cons.mp hm with h | h
      · subst h
        simp
      · by_cases ha : a.key = r.key
        · exact absurd ha ((List.pairwise_cons.mp hu).1 r h)
        · rw [List.find?_cons_of_neg _ (by simpa using ha)]
          exact ih (List.pairwise_cons.mp hu).2 h

/-- Claim C7: upsert is idempotent.  Upserting the same record twice
yields `unchanged` the second time with store contents and count exactly
as before the second upsert; equivalently, upserting a record that is
already present (identical fields) in a unique-key store returns
`unchanged` and leaves the store untouched. -/
theorem upsert_idempotent (store : ActivityStore) (r : ActivityRecord) :
    upsert (upsert store r).2 r = (UpsertResult.unchanged, (upsert store r).2) ∧
    (UniqueKeys store → r ∈ store →
      upsert store r = (UpsertResult.unchanged, store)) := by
  constructor
  · have h := find?_after_upsert store r
    generalize hst : (upsert store r).2 = store1 at h ⊢
    unfold upsert
    rw [h]
    simp
  · intro hu hm
    unfold upsert
    rw [find?_of_mem_uniqueKeys store r hu hm]
    simp

/-- Witness for C7 at a concrete store and record: the second branch's
hypotheses are discharged on the singleton store holding `sampleRecord`. -/
theorem upsert_idempotent_witness :
    upsert (upsert [] sampleRecord).2 sampleRecord
      = (UpsertResult.unchanged, (upsert [] sampleRecord).2) ∧
    upsert [sampleRecord] sampleRecord
      = (UpsertResult.unchanged, [sampleRecord]) := by
  exact ⟨(upsert_idempotent [] sampleRecord).1,
    (upsert_idempotent [sampleRecord] sampleRecord).2
      (List.pairwise_singleton _ _) (List.mem_singleton_self _)⟩

/-! ## A small comparator-driven sort

Used both by the modelled store's range query (ascending `occurredAt`)
and by the frontend's `Array.prototype.sort` call in `StockCard.tsx`.
`le a b = true` means `a` may come before `b`. -/

def insertLe {α : Type} (le : α → α → Bool) (x : α) : List α → List α
  | [] => [x]
  | y :: ys => if le x y then x :: y :: ys else y :: insertLe le x ys

def sortByLe {α : Type} (le : α → α → Bool) : List α → List α
  | [] => []
  | x :: xs => insertLe le x (sortByLe le xs)

lemma insertLe_perm {α : Type} (le : α → α → Bool) (x : α) (l : List α) :
    (insertLe le x l).Perm (x :: l) := by
  induction l with
  | nil => simp [insertLe]
  | cons y ys ih =>
      by_cases h : le x y
      · simp [insertLe, h]
      · simp only [insertLe, h, if_false]
        exact (ih.cons y).trans (List.Perm.swap x y ys)

lemma sortByLe_perm {α : Type} (le : α → α → Bool) (l : List α) :
    (sortByLe le l).Perm l := by
  induction l with
  | nil => simp [sortByLe]
  | cons x xs ih =>
      exact (insertLe_perm le x (sortByLe le xs)).trans (ih.cons x)

lemma insertLe_head {α : Type} (le : α → α → Bool) (x : α) (l : List α) :
    (insertLe le x l).head? = some x ∨ (insertLe le x l).head? = l.head? := by
  cases l with
  | nil => left; rfl
  | cons y ys =>
      by_cases h : le x y
      · left; simp [insertLe, h]
      · right; simp [insertLe, h]

lemma insertLe_chain' {α : Type} (le : α → α → Bool)
    (htot : ∀ a b : α, le a b = true ∨ le b a = true) (x : α) (l : List α)
    (h : l.Chain' (fun a b => le a b = true)) :
    (insertLe le x l).Chain' (fun a b => le a b = true) := by
  induction l with
  | nil => simp [insertLe]
  | cons y ys ih =>
      by_cases hxy : le x y
      · simp only [insertLe, hxy, if_true]
        exact List.chain'_cons.mpr ⟨hxy, h⟩
      · simp only [insertLe, hxy, if_false]
        have hys := (List.chain'_cons'.mp h).2
        have hyx : le y x = true := by
          rcases htot x y with hl | hl
          · exact absurd hl hxy
          · exact hl
        refine List.chain'_cons'.mpr ⟨?_, ih hys⟩
        intro z hz
        rcases insertLe_head le x ys with hh | hh
        · rw [hh] at hz
          simp only [Option.mem_some_iff] at hz
          subst hz
          exact hyx
        · rw [hh] at hz
          exact (List.chain'_cons'.mp h).1 z hz

lemma sortByLe_chain' {α : Type} (le : α → α → Bool)
    (htot : ∀ a b : α, le a b = true ∨ le b a = true) (l : List α) :
    (sortByLe le l).Chain' (fun a b => le a b = true) := by
  induction l with
  | nil => simp [sortByLe]
  | cons x xs ih => exact insertLe_chain' le htot x (sortByLe le xs) ih

/-! ## Range queries (C5) -/

/-- Whether a record passes the optional source-kind filter. -/
def matchesSource (filt : Option String) (r : ActivityRecord) : Bool :=
  match filt with
  | none => true
  | some k => decide (r.sourceKind = k)

/-- The half-open range-and-filter predicate of `queryRange`. -/
def inQueryRange (start stop : Int) (filt : Option String)
    (r : ActivityRecord) : Bool :=
  decide (start ≤ r.occurredAt) && decide (r.occurredAt < stop) &&
    matchesSource filt r

/-- Modelled from the spec: the Activity Store's `queryRange` (§4.6) —
the store implementation is not among the shipped sources.  Returns the
stored records with `start ≤ occurredAt < stop`, restricted to the
optional source filter, sorted by `occurredAt` ascending. -/
def queryRange (store : ActivityStore) (start stop : Int)
    (filt : Option String) : List ActivityRecord :=
  sortByLe (fun a b => decide (a.occurredAt ≤ b.occurredAt))
    (store.filter (inQueryRange start stop filt))

/-- Claim C5: `queryRange(start, stop)` returns exactly the stored
records with `start ≤ occurredAt < stop` (restricted to the source
filter when one is supplied) — as a permutation of the filtered store
and as a membership characterisation — in ascending `occurredAt` order. -/
theorem queryRange_correct (store : ActivityStore) (start stop : Int)
    (filt : Option String) :
    (queryRange store start stop filt).Perm
      (store.filter (inQueryRange start stop filt)) ∧
    (∀ r : ActivityRecord, r ∈ queryRange store start stop filt ↔
      r ∈ store ∧ start ≤ r.occurredAt ∧ r.occurredAt < stop ∧
        matchesSource filt r = true) ∧
    (queryRange store start stop filt).Chain'
      (fun a b => a.occurredAt ≤ b.occurredAt) := by
  refine ⟨sortByLe_perm _ _, ?_, ?_⟩
  · intro r
    unfold queryRange
    rw [(sortByLe_perm _ _).mem_iff, List.mem_filter]
    unfold inQueryRange
    simp [and_assoc]
  · have h := sortByLe_chain'
      (fun a b : ActivityRecord => decide (a.occurredAt ≤ b.occurredAt))
      (fun a b => by
        rcases le_total a.occurredAt b.occurredAt with h | h
        · left; simp [h]
        · right; simp [h])
      (store.filter (inQueryRange start stop filt))
    exact h.imp (fun a b hab => of_decide_eq_true hab)

/-! ## Timeline Query Engine (C6)

The frontend caller is `timelineApi` in the API client
(`getTimeline: (params?) => api.get('/api/timeline/', \x7b params \x7d)`);
the engine itself sits in the backend, which is not among the shipped
sources, so it is modelled from the specification (§4.7, §7). -/

inductive QueryError where
  | invalidRange
deriving DecidableEq, Repr

/-- State seen by the Timeline Query Engine: the store plus a count of
queries the engine has issued against the store, used to express that a
rejected request never reaches the store. -/
structure EngineState where
  store : ActivityStore
  storeQueries : Nat
deriving DecidableEq, Repr

/-- Modelled from the spec: the Timeline Query Engine (§4.7) — not among
the shipped sources.  Validates the caller-supplied range, rejecting
`stop < start` with `InvalidRange` before any store access; otherwise
queries the store, applies the result-count cap, and shapes the output
as the sequence plus its count. -/
def timelineQuery (start stop : Int) (filt : Option String) (cap : Nat)
    (st : EngineState) :
    Except QueryError (List ActivityRecord × Nat) × EngineState :=
  if stop < start then
    (.error .invalidRange, st)
  else
    let res := (queryRange st.store start stop filt).take cap
    (.ok (res, res.length), { st with storeQueries := st.storeQueries + 1 })

/-- Claim C6: a caller-supplied range with `stop < start` is rejected
with `InvalidRange` at the Timeline Query Engine boundary: the result is
the error, the engine issues no query against the store, and the state
(store contents included) is unchanged. -/
theorem timeline_invalid_range_rejected (start stop : Int)
    (filt : Option String) (cap : Nat) (st : EngineState)
    (h : stop < start) :
    timelineQuery start stop filt cap st
      = (.error QueryError.invalidRange, st) := by
  simp [timelineQuery, h]

/-- Witness for C6 at the concrete inverted range `start = 5, stop = 3`
on a concrete engine state. -/
theorem timeline_invalid_range_rejected_witness :
    timelineQuery 5 3 none 100 ⟨[sampleRecord], 0⟩
      = (.error QueryError.invalidRange, ⟨[sampleRecord], 0⟩) :=
  timeline_invalid_range_rejected 5 3 none 100 ⟨[sampleRecord], 0⟩
    (by decide)

/-! ## Sync Orchestrator concurrency guard (C2)

The orchestrator sits in the backend, which is not among the shipped
sources, so it is modelled from the specification (§4.5, §5, §8). -/

/-- Result of a trigger-sync call. `started` begins a new run (and is
the only path that invokes the adapter's `fetchSince`); `coalesced`
stands for both spec-allowed answers to a duplicate trigger — joining
the in-flight run's result or a `SyncInProgress` rejection — neither of
which starts new work. -/
inductive TriggerResult where
  | started
  | coalesced
deriving DecidableEq, Repr

/-- Per-source orchestrator state: whether a run is in flight
(`Idle`/`Running` as a flag), plus the number of adapter `fetchSince`
invocations so far. -/
structure OrchState where
  running : Bool
  fetchCount : Nat
deriving DecidableEq, Repr

/-- Modelled from the spec: the orchestrator's trigger-sync entry point
(§4.5) — not among the shipped sources.  A trigger while a run is in
flight coalesces (or is rejected) without fetching; a trigger from Idle
moves to Running and performs exactly one `fetchSince`. -/
def triggerSync (st : OrchState) : TriggerResult × OrchState :=
  if st.running then
    (.coalesced, st)
  else
    (.started, { running := true, fetchCount := st.fetchCount + 1 })

/-- A run completing (success, partial or failure) returns to Idle. -/
def completeSync (st : OrchState) : OrchState :=
  { st with running := false }

/-- Iterated triggering within one in-flight window (no completion in
between). -/
def triggerN : Nat → OrchState → OrchState
  | 0, st => st
  | n + 1, st => triggerN n (triggerSync st).2

lemma triggerN_running (n : Nat) (st : OrchState) (h : st.running = true) :
    triggerN n st = st := by
  induction n with
  | zero => rfl
  | succ n ih => simp [triggerN, triggerSync, h, ih]

/-- Claim C2: from an Idle source, the first trigger-sync starts the
run; a second trigger issued while that run is in flight coalesces with
it (joins or is rejected, per the model) and the run stays unique: after
the two calls — indeed after any positive number of trigger calls in
the same in-flight window — the adapter's `fetchSince` has been invoked
exactly once more than before, and exactly one run is Running. -/
theorem orchestrator_single_fetch (st : OrchState)
    (h : st.running = false) :
    (triggerSync st).1 = .started ∧
    (triggerSync (triggerSync st).2).1 = .coalesced ∧
    (triggerSync (triggerSync st).2).2.fetchCount = st.fetchCount + 1 ∧
    ∀ n : Nat, (triggerN (n + 1) st).fetchCount = st.fetchCount + 1 ∧
      (triggerN (n + 1) st).running = true := by
  refine ⟨by simp [triggerSync, h], by simp [triggerSync, h],
    by simp [triggerSync, h], ?_⟩
  intro n
  have hstep : (triggerSync st).2
      = { running := true, fetchCount := st.fetchCount + 1 } := by
    simp [triggerSync, h]
  have hrun := triggerN_running n
    { running := true, fetchCount := st.fetchCount + 1 } rfl
  simp [triggerN, hstep, hrun]

/-- Witness for C2 from the concrete Idle state with no prior fetches:
two triggers yield one `fetchSince` invocation. -/
theorem orchestrator_single_fetch_witness :
    (triggerSync ⟨false, 0⟩).1 = .started ∧
    (triggerSync (triggerSync ⟨false, 0⟩).2).1 = .coalesced ∧
    (triggerSync (triggerSync ⟨false, 0⟩).2).2.fetchCount = 1 := by
  have h := orchestrator_single_fetch ⟨false, 0⟩ rfl
  exact ⟨h.1, h.2.1, h.2.2.1⟩

/-! ## Monotone sync cursor (C4)

The orchestrator's cursor handling sits in the backend, which is not
among the shipped sources, so it is modelled from the specification
(§4.5, §5, §8: "lastSync only ever advances monotonically", "advanced
only up to the last successfully processed item's timestamp"). -/

/-- Per-source configuration, per the spec's §3 `SourceConfig` and the
`data_sources` table of `docs/database-schema.md` (`name`, `enabled`,
`last_sync`). -/
structure SourceConfig where
  name : String
  enabled : Bool
  lastSync : Int
deriving DecidableEq, Repr

/-- Advancing the cursor over the records actually upserted in a run:
monotone advance to each processed record's `occurredAt`. -/
def advanceLastSync (ls : Int) (processed : List ActivityRecord) : Int :=
  processed.foldl (fun a r => max a r.occurredAt) ls

/-- Modelled from the spec: one sync run's effect on `SourceConfig`
(§4.5) — not among the shipped sources.  The adapter yields `records`;
the run processes them in order and stops after `upserted` of them (all
of them on success, a strict prefix when the run ends partial on a
mid-stream failure or cancellation); `lastSync` advances only over the
processed prefix. -/
def runSync (cfg : SourceConfig) (records : List ActivityRecord)
    (upserted : Nat) : SourceConfig :=
  { cfg with lastSync := advanceLastSync cfg.lastSync (records.take upserted) }

lemma le_advanceLastSync (ls : Int) (l : List ActivityRecord) :
    ls ≤ advanceLastSync ls l := by
  induction l generalizing ls with
  | nil => simp [advanceLastSync]
  | cons r t ih =>
      calc ls ≤ max ls r.occurredAt := le_max_left _ _
        _ ≤ advanceLastSync (max ls r.occurredAt) t := ih _
        _ = advanceLastSync ls (r :: t) := rfl

lemma advanceLastSync_eq_getLast (ls : Int) (l : List ActivityRecord)
    (last : ActivityRecord)
    (hord : l.Pairwise (fun a b => a.occurredAt ≤ b.occurredAt))
    (hcur : ∀ r ∈ l, ls ≤ r.occurredAt)
    (hlast : l.getLast? = some last) :
    advanceLastSync ls l = last.occurredAt := by
  induction l generalizing ls with
  | nil => simp at hlast
  | cons r t ih =>
      have hr : ls ≤ r.occurredAt := hcur r (List.mem_cons_self r t)
      have hmax : max ls r.occurredAt = r.occurredAt := max_eq_right hr
      cases t with
      | nil =>
          simp only [List.getLast?_singleton, Option.some.injEq] at hlast
          subst hlast
          simp [advanceLastSync, hmax]
      | cons s t' =>
          have hstep : advanceLastSync ls (r :: s :: t')
              = advanceLastSync r.occurredAt (s :: t') := by
            simp [advanceLastSync, hmax]
          rw [hstep]
          have hord' := (List.pairwise_cons.mp hord)
          refine ih _ hord'.2 ?_ ?_
          · intro x hx
            exact hord'.1 x hx
          · rw [List.getLast?_cons_cons] at hlast
            exact hlast

/-- Claim C4: after any sync run over a source — success or partial —
`SourceConfig.lastSync` never decreases, and when at least one record
was upserted it is bounded by (in the model: equal to) the `occurredAt`
of the last record actually upserted.  The hypotheses are the adapter
contract: records are yielded in nondecreasing `occurredAt` order, at or
after the since-cursor. -/
theorem lastSync_monotone_bounded (cfg : SourceConfig)
    (records : List ActivityRecord) (upserted : Nat)
    (hord : records.Pairwise (fun a b => a.occurredAt ≤ b.occurredAt))
    (hcur : ∀ r ∈ records, cfg.lastSync ≤ r.occurredAt) :
    cfg.lastSync ≤ (runSync cfg records upserted).lastSync ∧
    ∀ last : ActivityRecord, (records.take upserted).getLast? = some last →
      (runSync cfg records upserted).lastSync ≤ last.occurredAt := by
  constructor
  · exact le_advanceLastSync _ _
  · intro last hlast
    have hord' := hord.sublist (List.take_sublist upserted records)
    have hcur' : ∀ r ∈ records.take upserted, cfg.lastSync ≤ r.occurredAt :=
      fun r hr => hcur r (List.take_subset upserted records hr)
    exact le_of_eq (advanceLastSync_eq_getLast cfg.lastSync _ last
      hord' hcur' hlast)

/-- A second concrete record, occurring after `sampleRecord`. -/
def sampleRecordLater : ActivityRecord :=
  { sampleRecord with sourceNativeId := "card-2", occurredAt := 200 }

/-- Witness for C4 at a concrete partial run: two records yielded, one
upserted; the cursor advances from 0 to exactly the first record's
`occurredAt` of 100. -/
theorem lastSync_monotone_bounded_witness :
    (0 : Int) ≤ (runSync ⟨"trello", true, 0⟩
      [sampleRecord, sampleRecordLater] 1).lastSync ∧
    (runSync ⟨"trello", true, 0⟩
      [sampleRecord, sampleRecordLater] 1).lastSync
        ≤ sampleRecord.occurredAt := by
  have h := lastSync_monotone_bounded ⟨"trello", true, 0⟩
    [sampleRecord, sampleRecordLater] 1
    (by simp [sampleRecord, sampleRecordLater])
    (by intro r hr
        rcases List.mem_cons.mp hr with h | h
        · subst h; simp [sampleRecord]
        · simp only [List.mem_singleton] at h
          subst h; simp [sampleRecordLater, sampleRecord])
  exact ⟨h.1, h.2 sampleRecord rfl⟩

/-! ## Frontend: browser localStorage model

`localStorage` is modelled as an association list from keys to values;
`setItem` replaces any previous binding, `removeItem` deletes it,
`getItem` is `List.lookup`. -/

abbrev LocalStorage := List (String × String)

def lsSet (ls : LocalStorage) (k v : String) : LocalStorage :=
  (k, v) :: ls.filter (fun kv => !(kv.1 == k))

def lsRemove (ls : LocalStorage) (k : String) : LocalStorage :=
  ls.filter (fun kv => !(kv.1 == k))

lemma lookup_lsSet (ls : LocalStorage) (k v : String) :
    (lsSet ls k v).lookup k = some v := by
  simp [lsSet, List.lookup]

lemma lookup_lsRemove (ls : LocalStorage) (k : String) :
    (lsRemove ls k).lookup k = none := by
  induction ls with
  | nil => rfl
  | cons kv t ih =>
      unfold lsRemove at ih ⊢
      by_cases h : kv.1 = k
      · have hb : (kv.1 == k) = true := beq_iff_eq.mpr h
        simp only [List.filter_cons, hb, Bool.not_true, Bool.false_eq_true,
          if_false]
        exact ih
      · have hb : (kv.1 == k) = false := beq_eq_false_iff_ne.mpr h
        have hb2 : (k == kv.1) = false :=
          beq_eq_false_iff_ne.mpr (Ne.symm h)
        simp only [List.filter_cons, hb, Bool.not_false, if_pos rfl,
          List.lookup, hb2]
        exact ih

/-! ## Frontend token persistence (C3)

Embedded from `frontend/src/stores/dashboard.js`: the hard-coded local
development token, `autoSetLocalToken` and `setApiToken`. -/

/-- The hard-coded local development token of
`frontend/src/stores/dashboard.js` (`LOCAL_DEV_TOKEN`): a plaintext API
credential baked into the frontend source. -/
def LOCAL_DEV_TOKEN : String :=
  "43f4404377d1684d88fabbe5a2eb852af2d0f91955b9a6bd1d6aa26fed34ba9d"

/-- JavaScript string truthiness for optional strings: the empty string
and an absent value are both falsy. -/
def truthyStr : Option String → Option String
  | some s => if s = "" then none else some s
  | none => none

/-- `autoSetLocalToken` of `stores/dashboard.js`: if neither
`localStorage.dashboard_api_token` nor the `VITE_API_TOKEN` environment
value is truthy, it writes `LOCAL_DEV_TOKEN` into localStorage and
returns it; otherwise it returns the existing token and leaves
localStorage alone.  Returns (token, localStorage after the call). -/
def autoSetLocalToken (env : Option String) (ls : LocalStorage) :
    String × LocalStorage :=
  match truthyStr (ls.lookup "dashboard_api_token") with
  | some t => (t, ls)
  | none =>
      match truthyStr env with
      | some t => (t, ls)
      | none => (LOCAL_DEV_TOKEN, lsSet ls "dashboard_api_token" LOCAL_DEV_TOKEN)

/-- `setApiToken` of `stores/dashboard.js`: stores the supplied token in
`localStorage` under `dashboard_api_token`. -/
def setApiToken (ls : LocalStorage) (token : String) : LocalStorage :=
  lsSet ls "dashboard_api_token" token

/-- Counterexample to C3: on a fresh browser (empty localStorage, no
environment token), the store's initialisation path `autoSetLocalToken`
completes with the plaintext credential `LOCAL_DEV_TOKEN` persisted in
localStorage — persistent storage — contradicting "after any operation
completes no log, cache, or persisted state contains them". -/
theorem frontend_writes_plaintext_token :
    ((autoSetLocalToken none []).2.lookup "dashboard_api_token"
      = some LOCAL_DEV_TOKEN) ∧ LOCAL_DEV_TOKEN ≠ "" := by
  constructor
  · rfl
  · decide

/-- Claim C3 as amended: plaintext credential transience holds only for
the backend core's adapter credentials (the Secret Vault contract); the
frontend deliberately persists the dashboard API token in plaintext in
localStorage — `setApiToken` always stores the caller's token under
`dashboard_api_token`, and `autoSetLocalToken` stores the hard-coded
local development token whenever no token is configured. -/
theorem frontend_token_persistence (ls : LocalStorage) (t : String)
    (env : Option String)
    (hls : truthyStr (ls.lookup "dashboard_api_token") = none)
    (henv : truthyStr env = none) :
    (setApiToken ls t).lookup "dashboard_api_token" = some t ∧
    (autoSetLocalToken env ls).2.lookup "dashboard_api_token"
      = some LOCAL_DEV_TOKEN := by
  constructor
  · exact lookup_lsSet ls "dashboard_api_token" t
  · unfold autoSetLocalToken
    rw [hls, henv]
    exact lookup_lsSet ls "dashboard_api_token" LOCAL_DEV_TOKEN

/-- Witness for the amended C3 on the empty localStorage with no
environment token. -/
theorem frontend_token_persistence_witness :
    (setApiToken [] "tok").lookup "dashboard_api_token" = some "tok" ∧
    (autoSetLocalToken none []).2.lookup "dashboard_api_token"
      = some LOCAL_DEV_TOKEN :=
  frontend_token_persistence [] "tok" none rfl rfl

/-! ## Shared axios client response interceptor (C10)

Embedded from the API client (`api.interceptors.response.use`): on a
response error whose status is 401, remove `dashboard_token` from
localStorage and redirect to `/login`; in every case return a rejected
promise. -/

/-- Browser state visible to the interceptor: localStorage and the
current location. -/
structure BrowserState where
  storage : LocalStorage
  href : String
deriving DecidableEq, Repr

/-- The response-error interceptor of the shared axios client.  `status`
is `error.response?.status` (absent when the request never got a
response).  Returns the new browser state and whether the error was
propagated as a rejected promise. -/
def onResponseError (status : Option Nat) (st : BrowserState) :
    BrowserState × Bool :=
  if status = some 401 then
    ({ storage := lsRemove st.storage "dashboard_token", href := "/login" },
      true)
  else
    (st, true)

/-- Claim C10: the shared axios client's response interceptor removes
the stored `dashboard_token` and redirects to `/login` exactly when the
response status is 401 — on 401 the token is gone from localStorage and
the location is `/login`; on any other status (or no response at all)
the browser state is untouched — and in every case the error is
propagated as a rejected promise. -/
theorem response_interceptor_401 (status : Option Nat) (st : BrowserState) :
    (onResponseError status st).2 = true ∧
    (status = some 401 →
      (onResponseError status st).1.storage.lookup "dashboard_token" = none ∧
      (onResponseError status st).1.href = "/login") ∧
    (status ≠ some 401 → (onResponseError status st).1 = st) := by
  refine ⟨?_, ?_, ?_⟩
  · unfold onResponseError
    by_cases h : status = some 401 <;> simp [h]
  · intro h
    subst h
    simp [onResponseError, lookup_lsRemove]
  · intro h
    simp [onResponseError, h]

/-- Witness for C10: the 401 branch on a browser holding a token, and
the untouched branch on a 500 response. -/
theorem response_interceptor_401_witness :
    (onResponseError (some 401)
      ⟨[("dashboard_token", "tok")], "/home"⟩).1.storage.lookup
        "dashboard_token" = none ∧
    (onResponseError (some 500)
      ⟨[("dashboard_token", "tok")], "/home"⟩).1
        = ⟨[("dashboard_token", "tok")], "/home"⟩ ∧
    (onResponseError none ⟨[], "/home"⟩).2 = true := by
  refine ⟨?_, ?_, ?_⟩
  · exact ((response_interceptor_401 (some 401)
      ⟨[("dashboard_token", "tok")], "/home"⟩).2.1 rfl).1
  · exact (response_interceptor_401 (some 500)
      ⟨[("dashboard_token", "tok")], "/home"⟩).2.2 (by decide)
  · exact (response_interceptor_401 none ⟨[], "/home"⟩).1

/-! ## TrelloCard completion rate (C8)

Embedded from `frontend/src/components/TrelloCard.tsx`:
`completed + pending > 0 ? Math.round((completed / (completed + pending)) * 100) : 0`.
JavaScript arithmetic on these small counts is exact, so it is modelled
over the rationals. -/

/-- JavaScript `Math.round`: round half away from zero toward positive
infinity, i.e. the floor of `q + 1/2`. -/
def jsRound (q : ℚ) : ℤ :=
  Int.floor (q + 1 / 2)

/-- The completion rate displayed by `TrelloCard` for `completed`
completed-today and `pending` to-do counts. -/
def completionRate (completed pending : ℕ) : ℤ :=
  if 0 < completed + pending then
    jsRound ((completed : ℚ) / ((completed : ℚ) + (pending : ℚ)) * 100)
  else 0

/-- Claim C8: the displayed completion rate equals
`Math.round(100 * completed / (completed + pending))` when the total is
positive, equals 0 when both counts are zero, and always lies between 0
and 100 — the division is guarded. -/
theorem trello_completion_rate (completed pending : ℕ) :
    (0 < completed + pending →
      completionRate completed pending
        = jsRound (100 * (completed : ℚ)
            / ((completed : ℚ) + (pending : ℚ)))) ∧
    (completed + pending = 0 → completionRate completed pending = 0) ∧
    0 ≤ completionRate completed pending ∧
    completionRate completed pending ≤ 100 := by
  refine ⟨?_, ?_, ?_, ?_⟩
  · intro h
    unfold completionRate
    rw [if_pos h]
    congr 1
    ring
  · intro h
    unfold completionRate
    rw [if_neg (by omega)]
  · unfold completionRate
    by_cases h : 0 < completed + pending
    · rw [if_pos h]
      unfold jsRound
      have hq : (0 : ℚ) ≤ (completed : ℚ) / ((completed : ℚ) + (pending : ℚ))
          * 100 := by positivity
      exact Int.le_floor.mpr (by push_cast; linarith)
    · rw [if_neg h]
  · unfold completionRate
    by_cases h : 0 < completed + pending
    · rw [if_pos h]
      unfold jsRound
      have hs : (0 : ℚ) < (completed : ℚ) + (pending : ℚ) := by
        have : (0 : ℚ) < ((completed + pending : ℕ) : ℚ) := by
          exact_mod_cast h
        push_cast at this
        linarith
      have hle : (completed : ℚ) / ((completed : ℚ) + (pending : ℚ)) ≤ 1 := by
        rw [div_le_one hs]
        have : (completed : ℚ) ≤ (completed : ℚ) + (pending : ℚ) := by
          have : (0 : ℚ) ≤ (pending : ℚ) := by positivity
          linarith
        exact this
      have hlt : (completed : ℚ) / ((completed : ℚ) + (pending : ℚ)) * 100
          + 1 / 2 < ((101 : ℤ) : ℚ) := by
        push_cast
        nlinarith
      have hfl := Int.floor_lt.mpr hlt
      omega
    · rw [if_neg h]
      omega

/-- Witness for C8: the guarded formula at `(3, 1)` and the zero case at
`(0, 0)`. -/
theorem trello_completion_rate_witness :
    completionRate 3 1 = jsRound (100 * (3 : ℚ) / ((3 : ℚ) + (1 : ℚ))) ∧
    completionRate 0 0 = 0 ∧
    0 ≤ completionRate 3 1 ∧ completionRate 3 1 ≤ 100 := by
  refine ⟨?_, ?_, ?_, ?_⟩
  · have h := (trello_completion_rate 3 1).1 (by omega)
    simpa using h
  · exact (trello_completion_rate 0 0).2.1 rfl
  · exact (trello_completion_rate 3 1).2.2.1
  · exact (trello_completion_rate 3 1).2.2.2

/-! ## StockCard top holdings (C9)

Embedded from `frontend/src/components/StockCard.tsx`:
`holdings.slice().sort((a, b) => Math.abs(b.pnl ?? 0) - Math.abs(a.pnl ?? 0)).slice(0, 3)`.
The `.slice()` copy makes the computation a pure function of the input
list, which is how it is modelled — the input is not mutated. -/

/-- A stock holding as consumed by `StockCard` (`StockHolding` of
`frontend/src/types/dashboard.ts`; `pnl` is optional). -/
structure StockHolding where
  symbol : String
  shares : ℚ
  pnl : Option ℚ
deriving DecidableEq, Repr

/-- The sort key: `Math.abs(pnl ?? 0)`. -/
def holdingSortKey (h : StockHolding) : ℚ :=
  |h.pnl.getD 0|

/-- The comparator `(a, b) => Math.abs(b.pnl ?? 0) - Math.abs(a.pnl ?? 0)`
as a may-come-before relation: `a` may precede `b` when the comparator
is ≤ 0, i.e. when `a`'s key is at least `b`'s. -/
def holdingBefore (a b : StockHolding) : Bool :=
  decide (holdingSortKey b ≤ holdingSortKey a)

/-- `topHoldings` of `StockCard.tsx`: sort a copy of the holdings by
descending absolute pnl and keep the first three. -/
def topHoldings (holdings : List StockHolding) : List StockHolding :=
  (sortByLe holdingBefore holdings).take 3

/-- Claim C9: `topHoldings` returns at most 3 holdings, ordered by
non-increasing absolute pnl (a missing pnl counted as 0), every one of
them drawn from the input list — which, the computation being a pure
function of the input (the code sorts a `.slice()` copy), is left
unmodified. -/
theorem stockcard_top_holdings (holdings : List StockHolding) :
    (topHoldings holdings).length ≤ 3 ∧
    (topHoldings holdings).Chain'
      (fun a b => holdingSortKey b ≤ holdingSortKey a) ∧
    ∀ h ∈ topHoldings holdings, h ∈ holdings := by
  refine ⟨?_, ?_, ?_⟩
  · simp only [topHoldings, List.length_take]
    exact min_le_left _ _
  · have hs := sortByLe_chain' holdingBefore
      (fun a b => by
        unfold holdingBefore
        rcases le_total (holdingSortKey b) (holdingSortKey a) with h | h
        · left; simp [h]
        · right; simp [h])
      holdings
    have := hs.take 3
    exact this.imp (fun a b hab => of_decide_eq_true hab)
  · intro h hm
    have hm' : h ∈ sortByLe holdingBefore holdings :=
      List.take_subset 3 _ hm
    exact (sortByLe_perm holdingBefore holdings).mem_iff.mp hm'

/-- A concrete holdings list used by the C9 witness. -/
def sampleHoldings : List StockHolding :=
  [⟨"AAPL", 10, some 5⟩, ⟨"MSFT", 4, none⟩,
   ⟨"TSLA", 2, some (-9)⟩, ⟨"NVDA", 1, some 2⟩]

/-- Witness for C9 on a concrete holdings list: the length bound, and
the membership conjunct discharged at a concrete element of the
result. -/
theorem stockcard_top_holdings_witness :
    (topHoldings sampleHoldings).length ≤ 3 ∧
    (⟨"TSLA", 2, some (-9)⟩ : StockHolding) ∈ sampleHoldings := by
  refine ⟨(stockcard_top_holdings sampleHoldings).1, ?_⟩
  exact (stockcard_top_holdings sampleHoldings).2.2
    ⟨"TSLA", 2, some (-9)⟩ (by decide)
